import Mathlib

/-!
# Verification of the genetic-programming engine of `llm_genetic_programming`

The repository's visible source is `main.py` (orchestration, dataset
construction via `target_func`, and the call `best.evaluate_arg(x)` for
plotting).  The evolutionary engine (`ga/population.py`, `ga/algorithm.py`,
the chromosome/expression-tree class) is referenced by `main.py` but its
source is not available; those parts are modelled from the specification,
each such definition carrying a doc comment starting `Modelled from the
spec:`.  Definitions taken from `src/main.py` cite it directly.
-/

namespace GP

/-- Modelled from the spec: the closed vocabulary of named operators, each
with a fixed arity — arity 1: sin, cos, e (exponential), ln, tg (tangent),
tanh, abs; arity 2: +, -, *, / (the vocabulary set up in `main.py`
lines 79-82). -/
inductive FnSym where
| sin | cos | e | ln | tg | tanh | abs
| add | sub | mul | div
deriving DecidableEq, Repr

/-- Modelled from the spec: the declared arity of each function symbol. -/
def arity : FnSym → ℕ
| .sin => 1 | .cos => 1 | .e => 1 | .ln => 1 | .tg => 1 | .tanh => 1 | .abs => 1
| .add => 2 | .sub => 2 | .mul => 2 | .div => 2

theorem arity_one_or_two (f : FnSym) : arity f = 1 ∨ arity f = 2 := by
cases f <;> simp [arity]

/-- Modelled from the spec: a terminal symbol is a reference to one input
variable (by index) or a literal constant. -/
inductive Term where
| var (i : ℕ)
| const (c : ℝ)

/-- Modelled from the spec: a node is a tagged variant — `Terminal` or
`Function(symbol, children)` where `children` is an ordered sequence whose
length is intended to equal the symbol's arity (the arity invariant is the
predicate `arityOk` below, not baked into the type). -/
inductive Node where
| term (t : Term)
| fn (f : FnSym) (children : List Node)

/-- Structural induction principle for `Node`, recursing through the
nested `List Node` of children. -/
theorem Node.myInd (motive : Node → Prop)
    (ht : ∀ t, motive (.term t))
    (hf : ∀ f cs, (∀ c ∈ cs, motive c) → motive (.fn f cs)) :
    ∀ n, motive n := by
have H : ∀ k (m : Node), sizeOf m ≤ k → motive m := by
  intro k
  induction k with
  | zero =>
    intro m hm
    cases m <;> simp_arith at hm
  | succ k ih =>
    intro m hm
    cases m with
    | term t => exact ht t
    | fn f cs =>
      refine hf f cs (fun c hc => ih c ?_)
      have h1 := List.sizeOf_lt_of_mem hc
      have h2 : sizeOf (Node.fn f cs) = 1 + sizeOf f + sizeOf cs := by
        simp
      omega
intro n
exact H (sizeOf n) n le_rfl

mutual

/-- Modelled from the spec: recursive depth query — a terminal has depth 0,
a function node has depth one more than its deepest child. -/
def depth : Node → ℕ
| .term _ => 0
| .fn _ cs => 1 + depthList cs

/-- Depth of the deepest node in a list of children (0 for an empty list). -/
def depthList : List Node → ℕ
| [] => 0
| c :: cs => max (depth c) (depthList cs)

end

theorem depth_mem_le {c : Node} {cs : List Node} (h : c ∈ cs) :
    depth c ≤ depthList cs := by
induction cs with
| nil => cases h
| cons d ds ih =>
  rcases List.mem_cons.mp h with h | h
  · subst h; simp [depthList]
  · simp [depthList]
    exact Or.inr (ih h)

theorem depthList_set (cs : List Node) (i : ℕ) (r : Node) :
    depthList (cs.set i r) ≤ max (depthList cs) (depth r) := by
induction cs generalizing i with
| nil => simp [depthList]
| cons d ds ih =>
  cases i with
  | zero =>
    simp only [List.set, depthList]
    omega
  | succ j =>
    simp only [List.set, depthList]
    have := ih j
    omega

mutual

/-- Modelled from the spec: the arity invariant — at every function node,
recursively, the number of children equals the declared arity of the
node's operator. -/
def arityOk : Node → Bool
| .term _ => true
| .fn f cs => (cs.length == arity f) && arityOkList cs

/-- The arity invariant for every node of a list of children. -/
def arityOkList : List Node → Bool
| [] => true
| c :: cs => arityOk c && arityOkList cs

end

theorem arityOkList_iff (cs : List Node) :
    arityOkList cs = true ↔ ∀ c ∈ cs, arityOk c = true := by
induction cs with
| nil => simp [arityOkList]
| cons d ds ih => simp [arityOkList, ih]

theorem arityOk_fn_iff (f : FnSym) (cs : List Node) :
    arityOk (.fn f cs) = true ↔
      cs.length = arity f ∧ ∀ c ∈ cs, arityOk c = true := by
simp [arityOk, arityOkList_iff]

/-- Modelled from the spec: the numeric domain of evaluation — a finite
value, one of the two infinities, or NaN, mirroring the non-finite results a
float computation can produce (division by zero, log of a non-positive
argument, overflow). -/
inductive FVal where
| fin (r : ℝ)
| pinf
| ninf
| nan

/-- An `FVal` is finite when it is a `fin`. -/
def FVal.isFiniteB : FVal → Bool
| .fin _ => true
| _ => false

/-- An `FVal` is one of the two infinities. -/
def FVal.isInfB : FVal → Bool
| .pinf => true
| .ninf => true
| _ => false

/-- An `FVal` is NaN. -/
def FVal.isNanB : FVal → Bool
| .nan => true
| _ => false

/-- The underlying real of a finite value (0 for non-finite values). -/
def FVal.toReal : FVal → ℝ
| .fin r => r
| _ => 0

/-- Modelled from the spec: the overflow threshold of the float domain
(the largest finite double). -/
noncomputable def FMAX : ℝ := 1.7976931348623157e308

/-- Modelled from the spec: inject a real result of an arithmetic operation
into the float domain — a magnitude beyond `FMAX` overflows to a signed
infinity. -/
noncomputable def mkF (r : ℝ) : FVal :=
if FMAX < r then .pinf else if r < -FMAX then .ninf else .fin r

/-- Modelled from the spec: float sine — finite on finite arguments
(sine never overflows), NaN on infinities and NaN. -/
noncomputable def fSin : FVal → FVal
| .fin r => .fin (Real.sin r)
| _ => .nan

/-- Modelled from the spec: float cosine. -/
noncomputable def fCos : FVal → FVal
| .fin r => .fin (Real.cos r)
| _ => .nan

/-- Modelled from the spec: float exponential — may overflow to `+inf`;
`exp(-inf) = 0`, `exp(+inf) = +inf`, `exp(nan) = nan`. -/
noncomputable def fExp : FVal → FVal
| .fin r => mkF (Real.exp r)
| .pinf => .pinf
| .ninf => .fin 0
| .nan => .nan

/-- Modelled from the spec: float natural logarithm — NaN on a negative
argument, `-inf` at zero, `+inf` at `+inf`. -/
noncomputable def fLn : FVal → FVal
| .fin r => if 0 < r then .fin (Real.log r) else if r = 0 then .ninf else .nan
| .pinf => .pinf
| _ => .nan

/-- Modelled from the spec: float tangent — may overflow near poles. -/
noncomputable def fTan : FVal → FVal
| .fin r => mkF (Real.tan r)
| _ => .nan

/-- Modelled from the spec: float hyperbolic tangent — always in `[-1, 1]`
on finite arguments, `±1` at the infinities. -/
noncomputable def fTanh : FVal → FVal
| .fin r => .fin (Real.tanh r)
| .pinf => .fin 1
| .ninf => .fin (-1)
| .nan => .nan

/-- Modelled from the spec: float absolute value. -/
noncomputable def fAbs : FVal → FVal
| .fin r => .fin |r|
| .pinf => .pinf
| .ninf => .pinf
| .nan => .nan

/-- Modelled from the spec: float addition — `inf + (-inf)` is NaN, NaN
propagates, finite sums may overflow. -/
noncomputable def fAdd : FVal → FVal → FVal
| .nan, _ => .nan
| _, .nan => .nan
| .pinf, .ninf => .nan
| .ninf, .pinf => .nan
| .pinf, _ => .pinf
| _, .pinf => .pinf
| .ninf, _ => .ninf
| _, .ninf => .ninf
| .fin a, .fin b => mkF (a + b)

/-- Modelled from the spec: float subtraction. -/
noncomputable def fSub : FVal → FVal → FVal
| .nan, _ => .nan
| _, .nan => .nan
| .pinf, .pinf => .nan
| .ninf, .ninf => .nan
| .pinf, _ => .pinf
| _, .pinf => .ninf
| .ninf, _ => .ninf
| _, .ninf => .pinf
| .fin a, .fin b => mkF (a - b)

/-- Modelled from the spec: float multiplication — `inf * 0` is NaN, signs
propagate, finite products may overflow. -/
noncomputable def fMul : FVal → FVal → FVal
| .nan, _ => .nan
| _, .nan => .nan
| .pinf, .pinf => .pinf
| .pinf, .ninf => .ninf
| .ninf, .pinf => .ninf
| .ninf, .ninf => .pinf
| .pinf, .fin b => if b = 0 then .nan else if 0 < b then .pinf else .ninf
| .fin a, .pinf => if a = 0 then .nan else if 0 < a then .pinf else .ninf
| .ninf, .fin b => if b = 0 then .nan else if 0 < b then .ninf else .pinf
| .fin a, .ninf => if a = 0 then .nan else if 0 < a then .ninf else .pinf
| .fin a, .fin b => mkF (a * b)

/-- Modelled from the spec: float division — division by zero yields a
signed infinity (NaN for `0/0`), `inf/inf` is NaN, a finite value divided
by an infinity is 0. -/
noncomputable def fDiv : FVal → FVal → FVal
| .nan, _ => .nan
| _, .nan => .nan
| .pinf, .pinf => .nan
| .pinf, .ninf => .nan
| .ninf, .pinf => .nan
| .ninf, .ninf => .nan
| .pinf, .fin b => if 0 ≤ b then .pinf else .ninf
| .ninf, .fin b => if 0 ≤ b then .ninf else .pinf
| .fin _, .pinf => .fin 0
| .fin _, .ninf => .fin 0
| .fin a, .fin b =>
    if b = 0 then (if a = 0 then .nan else if 0 < a then .pinf else .ninf)
    else mkF (a / b)

/-- Modelled from the spec: apply a function symbol's raw operator to its
argument list (NaN on an argument count that does not match the arity). -/
noncomputable def applyFn : FnSym → List FVal → FVal
| .sin, [a] => fSin a
| .cos, [a] => fCos a
| .e, [a] => fExp a
| .ln, [a] => fLn a
| .tg, [a] => fTan a
| .tanh, [a] => fTanh a
| .abs, [a] => fAbs a
| .add, [a, b] => fAdd a b
| .sub, [a, b] => fSub a b
| .mul, [a, b] => fMul a b
| .div, [a, b] => fDiv a b
| _, _ => .nan

/-- Modelled from the spec: the bounded finite sentinel the evaluation
clamp uses for a non-finite operator result. -/
noncomputable def SENTINEL : ℝ := 1e10

/-- Modelled from the spec: the clamp applied at every operator
application — a non-finite operator result is replaced by a bounded finite
sentinel (signed for the infinities, 0 for NaN); finite results pass
through unchanged. -/
noncomputable def clampF : FVal → FVal
| .fin r => .fin r
| .pinf => .fin SENTINEL
| .ninf => .fin (-SENTINEL)
| .nan => .fin 0

theorem clampF_isFiniteB (v : FVal) : (clampF v).isFiniteB = true := by
cases v <;> simp [clampF, FVal.isFiniteB]

mutual

/-- Modelled from the spec: tree evaluation — terminal nodes return the
bound variable or constant; function nodes evaluate their children, apply
the raw operator, and clamp the result at that very operator application. -/
noncomputable def evaluate : Node → (ℕ → FVal) → FVal
| .term (.var i), env => env i
| .term (.const c), _ => .fin c
| .fn f cs, env => clampF (applyFn f (evalList cs env))

/-- Evaluation of a list of children. -/
noncomputable def evalList : List Node → (ℕ → FVal) → List FVal
| [], _ => []
| c :: cs, env => evaluate c env :: evalList cs env

end

/-- Modelled from the spec: subtree addressing by a sequence of child
indices from the root; an index that does not address a child leaves the
walk at the node reached so far (such paths are never produced by
`allPaths`). -/
def subtree_at : List ℕ → Node → Node
| [], n => n
| _ :: _, .term t => .term t
| i :: p, .fn f cs =>
    match cs[i]? with
    | some c => subtree_at p c
    | none => .fn f cs

/-- Modelled from the spec: replace the subtree at the given address,
leaving the rest of the tree unchanged; an address that does not exist
leaves the tree unchanged. -/
def replace_subtree : List ℕ → Node → Node → Node
| [], _, sub => sub
| _ :: _, .term t, _ => .term t
| i :: p, .fn f cs, sub =>
    match cs[i]? with
    | some c => .fn f (cs.set i (replace_subtree p c sub))
    | none => .fn f cs

mutual

/-- Modelled from the spec: the addresses of all nodes of a tree — the
empty address for the root plus, for each child `i`, the addresses inside
that child prefixed with `i`. -/
def allPaths : Node → List (List ℕ)
| .term _ => [[]]
| .fn _ cs => [] :: pathsList 0 cs

/-- The addresses of all nodes inside a list of children, the first child
carrying index `i`. -/
def pathsList : ℕ → List Node → List (List ℕ)
| _, [] => []
| i, c :: cs => (allPaths c).map (fun q => i :: q) ++ pathsList (i + 1) cs

end

theorem allPaths_ne_nil (n : Node) : allPaths n ≠ [] := by
cases n <;> simp [allPaths]

theorem pathsList_sound (cs : List Node) (i : ℕ) (p : List ℕ)
    (h : p ∈ pathsList i cs) :
    ∃ c ∈ cs, ∃ q ∈ allPaths c, p.length = q.length + 1 := by
induction cs generalizing i with
| nil => simp [pathsList] at h
| cons d ds ih =>
  simp only [pathsList, List.mem_append, List.mem_map] at h
  rcases h with ⟨q, hq, rfl⟩ | h
  · exact ⟨d, by simp, q, hq, by simp⟩
  · rcases ih (i + 1) h with ⟨c, hc, q, hq, hlen⟩
    exact ⟨c, by simp [hc], q, hq, hlen⟩

theorem allPaths_length_le :
    ∀ n : Node, ∀ p ∈ allPaths n, p.length ≤ depth n := by
intro n
induction n using Node.myInd with
| ht t => intro p hp; simp [allPaths] at hp; simp [hp]
| hf f cs ih =>
  intro p hp
  simp only [allPaths, List.mem_cons] at hp
  rcases hp with rfl | hp
  · simp
  · rcases pathsList_sound cs 0 p hp with ⟨c, hc, q, hq, hlen⟩
    have h1 := ih c hc q hq
    have h2 := depth_mem_le hc
    simp only [depth]
    omega

/-- Modelled from the spec: pick a random node address of a tree — the
random draw selects uniformly among the addresses of all nodes. -/
def pickPath (n : Node) (r : ℕ) : List ℕ :=
(allPaths n).getD (r % (allPaths n).length) []

theorem pickPath_mem (n : Node) (r : ℕ) : pickPath n r ∈ allPaths n := by
have hne : allPaths n ≠ [] := allPaths_ne_nil n
have hlen : 0 < (allPaths n).length := List.length_pos.mpr hne
have hlt : r % (allPaths n).length < (allPaths n).length := Nat.mod_lt _ hlen
rw [pickPath, List.getD_eq_getElem _ _ hlt]
exact List.getElem_mem hlt

theorem subtree_at_depth_le :
    ∀ (p : List ℕ) (n : Node), depth (subtree_at p n) ≤ depth n := by
intro p
induction p with
| nil => intro n; simp [subtree_at]
| cons i q ih =>
  intro n
  cases n with
  | term t => simp [subtree_at]
  | fn f cs =>
    simp only [subtree_at]
    cases hget : cs[i]? with
    | none => simp
    | some c =>
      have h1 := ih c
      have h2 : c ∈ cs := by
        have := List.getElem?_eq_some_iff.mp hget
        rcases this with ⟨hlt, heq⟩
        exact heq ▸ List.getElem_mem hlt
      have h3 := depth_mem_le h2
      simp only [depth]
      omega

theorem subtree_at_arityOk :
    ∀ (p : List ℕ) (n : Node), arityOk n = true →
      arityOk (subtree_at p n) = true := by
intro p
induction p with
| nil => intro n h; simpa [subtree_at] using h
| cons i q ih =>
  intro n h
  cases n with
  | term t => simpa [subtree_at] using h
  | fn f cs =>
    simp only [subtree_at]
    cases hget : cs[i]? with
    | none => exact h
    | some c =>
      have h2 : c ∈ cs := by
        rcases List.getElem?_eq_some_iff.mp hget with ⟨hlt, heq⟩
        exact heq ▸ List.getElem_mem hlt
      exact ih c (((arityOk_fn_iff f cs).mp h).2 c h2)

theorem replace_subtree_depth_le :
    ∀ (p : List ℕ) (n s : Node),
      depth (replace_subtree p n s) ≤ max (depth n) (p.length + depth s) := by
intro p
induction p with
| nil => intro n s; simp [replace_subtree]
| cons i q ih =>
  intro n s
  cases n with
  | term t => simp [replace_subtree]
  | fn f cs =>
    simp only [replace_subtree]
    cases hget : cs[i]? with
    | none => simp
    | some c =>
      have hmem : c ∈ cs := by
        rcases List.getElem?_eq_some_iff.mp hget with ⟨hlt, heq⟩
        exact heq ▸ List.getElem_mem hlt
      have h1 := ih c s
      have h2 := depthList_set cs i (replace_subtree q c s)
      have h3 := depth_mem_le hmem
      simp only [depth, List.length_cons]
      omega

theorem replace_subtree_arityOk :
    ∀ (p : List ℕ) (n s : Node), arityOk n = true → arityOk s = true →
      arityOk (replace_subtree p n s) = true := by
intro p
induction p with
| nil => intro n s _ hs; simpa [replace_subtree] using hs
| cons i q ih =>
  intro n s hn hs
  cases n with
  | term t => simpa [replace_subtree] using hn
  | fn f cs =>
    simp only [replace_subtree]
    cases hget : cs[i]? with
    | none => exact hn
    | some c =>
      have hmem : c ∈ cs := by
        rcases List.getElem?_eq_some_iff.mp hget with ⟨hlt, heq⟩
        exact heq ▸ List.getElem_mem hlt
      rcases (arityOk_fn_iff f cs).mp hn with ⟨hlen, hall⟩
      refine (arityOk_fn_iff f _).mpr ⟨by simpa using hlen, ?_⟩
      intro d hd
      rcases List.mem_or_eq_of_mem_set hd with hd | rfl
      · exact hall d hd
      · exact ih c s (hall c hmem) hs

/-- A node is a terminal node. -/
def Node.isTermB : Node → Bool
| .term _ => true
| .fn _ _ => false

/-- Modelled from the spec: the run's vocabularies — an ordered set of
terminal symbols and an ordered set of function symbols (in `main.py` the
terminals are the variables `x0 .. x(n-1)` and the functions the fixed
unary/binary operator names). -/
structure Vocab where
  terminals : List Term
  fns : List FnSym

/-- Modelled from the spec: the two generation strategies. -/
inductive Strategy where
| full
| grow
deriving DecidableEq

/-- Modelled from the spec: pick a random terminal symbol from the
vocabulary (variable `x0` when the vocabulary is empty). -/
def pickTerm (v : Vocab) (r : ℕ) : Node :=
.term (v.terminals.getD (r % v.terminals.length) (.var 0))

/-- Modelled from the spec: random recursive tree generation threading an
explicit remaining-depth budget. Randomness is supplied as an oracle
`rng : ℕ → ℕ` read at an advancing position, returned alongside the node.
Budget 0 forces a terminal; with budget remaining, `full` always chooses a
function (when the function vocabulary is non-empty) while `grow` chooses
function-or-terminal according to the next random draw; a chosen function
symbol receives exactly `arity f` recursively generated children, each with
a budget smaller by one. -/
def generate (v : Vocab) (strat : Strategy) : ℕ → (ℕ → ℕ) → ℕ → Node × ℕ
| 0, rng, pos => (pickTerm v (rng pos), pos + 1)
| b + 1, rng, pos =>
    let chooseFn : Bool :=
      !v.fns.isEmpty &&
        (match strat with
         | .full => true
         | .grow => rng pos % 2 == 0)
    if chooseFn then
      let f := v.fns.getD (rng (pos + 1) % v.fns.length) .add
      if arity f = 1 then
        let rc := generate v strat b rng (pos + 2)
        (.fn f [rc.1], rc.2)
      else
        let rc1 := generate v strat b rng (pos + 2)
        let rc2 := generate v strat b rng rc1.2
        (.fn f [rc1.1, rc2.1], rc2.2)
    else (pickTerm v (rng pos), pos + 1)

theorem generate_depth_le (v : Vocab) (strat : Strategy) :
    ∀ (b : ℕ) (rng : ℕ → ℕ) (pos : ℕ),
      depth (generate v strat b rng pos).1 ≤ b := by
intro b
induction b with
| zero => intro rng pos; simp [generate, pickTerm, depth]
| succ b ih =>
  intro rng pos
  simp only [generate]
  split
  · split
    · have h1 := ih rng (pos + 2)
      simp only [depth, depthList]
      omega
    · have h1 := ih rng (pos + 2)
      have h2 := ih rng (generate v strat b rng (pos + 2)).2
      simp only [depth, depthList]
      omega
  · simp [pickTerm, depth]

theorem generate_zero_isTerm (v : Vocab) (strat : Strategy) (rng : ℕ → ℕ)
    (pos : ℕ) : ((generate v strat 0 rng pos).1).isTermB = true := by
simp [generate, pickTerm, Node.isTermB]

theorem fns_isEmpty_false {v : Vocab} (hv : v.fns ≠ []) :
    v.fns.isEmpty = false := by
cases hfl : v.fns with
| nil => exact absurd hfl hv
| cons a l => rfl

theorem generate_full_depth_eq (v : Vocab) (hv : v.fns ≠ []) :
    ∀ (b : ℕ) (rng : ℕ → ℕ) (pos : ℕ),
      depth (generate v .full b rng pos).1 = b := by
have hne := fns_isEmpty_false hv
intro b
induction b with
| zero => intro rng pos; simp [generate, pickTerm, depth]
| succ b ih =>
  intro rng pos
  simp only [generate, hne, Bool.not_false, Bool.true_and]
  split
  · split
    · have h1 := ih rng (pos + 2)
      simp only [depth, depthList]
      omega
    · have h1 := ih rng (pos + 2)
      have h2 := ih rng (generate v .full b rng (pos + 2)).2
      simp only [depth, depthList]
      omega
  · rename_i h
    exact absurd trivial h

theorem generate_full_isFn (v : Vocab) (hv : v.fns ≠ []) (b : ℕ)
    (hb : 0 < b) (rng : ℕ → ℕ) (pos : ℕ) :
    ((generate v .full b rng pos).1).isTermB = false := by
obtain ⟨b', rfl⟩ : ∃ b', b = b' + 1 := ⟨b - 1, by omega⟩
have hne := fns_isEmpty_false hv
simp only [generate, hne, Bool.not_false, Bool.true_and]
split
· split <;> simp [Node.isTermB]
· rename_i h
  exact absurd trivial h

theorem generate_grow_isFn_iff (v : Vocab) (hv : v.fns ≠ []) (b : ℕ)
    (hb : 0 < b) (rng : ℕ → ℕ) (pos : ℕ) :
    ((generate v .grow b rng pos).1).isTermB = false ↔ rng pos % 2 = 0 := by
obtain ⟨b', rfl⟩ : ∃ b', b = b' + 1 := ⟨b - 1, by omega⟩
have hne := fns_isEmpty_false hv
simp only [generate, hne, Bool.not_false, Bool.true_and]
split
· rename_i h
  have hc : rng pos % 2 = 0 := by simpa using h
  split <;> simp [Node.isTermB, hc]
· rename_i h
  have hc : ¬ rng pos % 2 = 0 := by simpa using h
  simp [pickTerm, Node.isTermB, hc]

theorem generate_arityOk (v : Vocab) (strat : Strategy) :
    ∀ (b : ℕ) (rng : ℕ → ℕ) (pos : ℕ),
      arityOk (generate v strat b rng pos).1 = true := by
intro b
induction b with
| zero => intro rng pos; simp [generate, pickTerm, arityOk]
| succ b ih =>
  intro rng pos
  simp only [generate]
  split
  · split
    · rename_i hf
      refine (arityOk_fn_iff _ _).mpr
        ⟨by simp only [List.length_cons, List.length_nil, hf], ?_⟩
      intro c hc
      simp only [List.mem_singleton] at hc
      subst hc
      exact ih rng (pos + 2)
    · rename_i hf
      have h2 : arity (v.fns.getD (rng (pos + 1) % v.fns.length) .add) = 2 := by
        rcases arity_one_or_two (v.fns.getD (rng (pos + 1) % v.fns.length) .add)
          with h | h
        · exact absurd h hf
        · exact h
      refine (arityOk_fn_iff _ _).mpr
        ⟨by simp only [List.length_cons, List.length_nil, h2], ?_⟩
      intro c hc
      simp only [List.mem_cons, List.mem_singleton] at hc
      rcases hc with rfl | rfl | h
      · exact ih rng (pos + 2)
      · exact ih rng (generate v strat b rng (pos + 2)).2
      · cases h
  · simp [pickTerm, arityOk]

/-- Modelled from the spec: the bounded retry count of crossover. -/
def RETRY_COUNT : ℕ := 10

/-- Modelled from the spec: crossover with explicit retry fuel — pick a
random node address in each parent and replace the mother's subtree at the
first address with the father's subtree at the second; if the offspring
exceeds `max_depth`, retry with new random addresses; when the fuel is
exhausted, fall back to an unmodified clone of the mother (in this pure
embedding a clone is the value itself). -/
def crossoverFuel (max_depth : ℕ) (mother father : Node) (rng : ℕ → ℕ) :
    ℕ → ℕ → Node × ℕ
| 0, pos => (mother, pos)
| r + 1, pos =>
    let pm := pickPath mother (rng pos)
    let pf := pickPath father (rng (pos + 1))
    let child := replace_subtree pm mother (subtree_at pf father)
    if depth child ≤ max_depth then (child, pos + 2)
    else crossoverFuel max_depth mother father rng r (pos + 2)

/-- Modelled from the spec: crossover — subtree exchange with a bounded
number of retries, which guarantees termination. -/
def crossover (max_depth : ℕ) (mother father : Node) (rng : ℕ → ℕ)
    (pos : ℕ) : Node × ℕ :=
crossoverFuel max_depth mother father rng RETRY_COUNT pos

/-- Modelled from the spec: mutation — when the next random draw falls
below the threshold `rate` (in parts per million), replace a randomly
chosen subtree with a freshly generated random subtree sized to the
remaining depth budget at that point; otherwise return an unmodified
clone. -/
def mutate (v : Vocab) (max_depth : ℕ) (rate : ℕ) (ch : Node)
    (rng : ℕ → ℕ) (pos : ℕ) : Node × ℕ :=
if rng pos % 1000000 < rate then
  let p := pickPath ch (rng (pos + 1))
  let sub := generate v .grow (max_depth - p.length) rng (pos + 2)
  (replace_subtree p ch sub.1, sub.2)
else (ch, pos + 1)

theorem crossoverFuel_depth_le (max_depth : ℕ) (mother father : Node)
    (rng : ℕ → ℕ) (hmo : depth mother ≤ max_depth) :
    ∀ (r pos : ℕ),
      depth (crossoverFuel max_depth mother father rng r pos).1 ≤ max_depth := by
intro r
induction r with
| zero => intro pos; simpa [crossoverFuel] using hmo
| succ r ih =>
  intro pos
  simp only [crossoverFuel]
  split
  · rename_i h
    simpa using h
  · exact ih (pos + 2)

theorem crossoverFuel_arityOk (max_depth : ℕ) (mother father : Node)
    (rng : ℕ → ℕ) (hmo : arityOk mother = true) (hfa : arityOk father = true) :
    ∀ (r pos : ℕ),
      arityOk (crossoverFuel max_depth mother father rng r pos).1 = true := by
intro r
induction r with
| zero => intro pos; simpa [crossoverFuel] using hmo
| succ r ih =>
  intro pos
  simp only [crossoverFuel]
  split
  · exact replace_subtree_arityOk _ _ _ hmo (subtree_at_arityOk _ _ hfa)
  · exact ih (pos + 2)

theorem mutate_depth_le (v : Vocab) (max_depth rate : ℕ) (ch : Node)
    (rng : ℕ → ℕ) (pos : ℕ) (hch : depth ch ≤ max_depth) :
    depth (mutate v max_depth rate ch rng pos).1 ≤ max_depth := by
unfold mutate
split
· dsimp only
  have hp := allPaths_length_le ch _ (pickPath_mem ch (rng (pos + 1)))
  have hg := generate_depth_le v .grow
    (max_depth - (pickPath ch (rng (pos + 1))).length) rng (pos + 2)
  have hr := replace_subtree_depth_le (pickPath ch (rng (pos + 1))) ch
    (generate v .grow (max_depth - (pickPath ch (rng (pos + 1))).length)
      rng (pos + 2)).1
  omega
· exact hch

theorem mutate_arityOk (v : Vocab) (max_depth rate : ℕ) (ch : Node)
    (rng : ℕ → ℕ) (pos : ℕ) (hch : arityOk ch = true) :
    arityOk (mutate v max_depth rate ch rng pos).1 = true := by
unfold mutate
split
· exact replace_subtree_arityOk _ _ _ hch (generate_arityOk v .grow _ rng _)
· exact hch

/-- Default scored individual used by list lookups with defaults. -/
def dfltScored : Node × ℝ := (.term (.var 0), 0)

/-- Modelled from the spec: the step that keeps the lower-error individual,
the earlier one winning ties. -/
noncomputable def keepBetter (b x : Node × ℝ) : Node × ℝ :=
if x.2 < b.2 then x else b

/-- Modelled from the spec: the individual with the lowest error of a
scored list, earlier individuals winning ties (`dfltScored` for an empty
list). -/
noncomputable def bestOf (scored : List (Node × ℝ)) : Node × ℝ :=
scored.foldl keepBetter (scored.headD dfltScored)

theorem foldl_keepBetter_le (l : List (Node × ℝ)) (b : Node × ℝ) :
    (l.foldl keepBetter b).2 ≤ b.2 ∧
      ∀ x ∈ l, (l.foldl keepBetter b).2 ≤ x.2 := by
induction l generalizing b with
| nil => exact ⟨le_rfl, by simp⟩
| cons d ds ih =>
  have hstep : (keepBetter b d).2 ≤ b.2 ∧ (keepBetter b d).2 ≤ d.2 := by
    unfold keepBetter
    split
    · rename_i h
      exact ⟨le_of_lt h, le_rfl⟩
    · rename_i h
      exact ⟨le_rfl, le_of_not_lt h⟩
  rcases ih (keepBetter b d) with ⟨h1, h2⟩
  refine ⟨le_trans h1 hstep.1, ?_⟩
  intro x hx
  rcases List.mem_cons.mp hx with rfl | hx
  · exact le_trans h1 hstep.2
  · exact h2 x hx

theorem foldl_keepBetter_mem (l : List (Node × ℝ)) (b : Node × ℝ) :
    l.foldl keepBetter b = b ∨ l.foldl keepBetter b ∈ l := by
induction l generalizing b with
| nil => exact Or.inl rfl
| cons d ds ih =>
  rcases ih (keepBetter b d) with h | h
  · rw [List.foldl_cons] at *
    rw [h]
    unfold keepBetter
    split
    · exact Or.inr (by simp)
    · exact Or.inl rfl
  · exact Or.inr (List.mem_cons_of_mem d h)

theorem bestOf_le (scored : List (Node × ℝ)) :
    ∀ x ∈ scored, (bestOf scored).2 ≤ x.2 :=
(foldl_keepBetter_le scored (scored.headD dfltScored)).2

theorem bestOf_mem (scored : List (Node × ℝ)) (hne : scored ≠ []) :
    bestOf scored ∈ scored := by
rcases foldl_keepBetter_mem scored (scored.headD dfltScored) with h | h
· rw [bestOf, h]
  cases scored with
  | nil => exact absurd rfl hne
  | cons a l => simp
· exact h

/-- Modelled from the spec: the `selection_size` random draws of tournament
selection — drawn uniformly at random with replacement from the scored
current generation. -/
def tdraws (scored : List (Node × ℝ)) (selection_size : ℕ) (rng : ℕ → ℕ)
    (pos : ℕ) : List (Node × ℝ) :=
(List.range selection_size).map
  (fun j => scored.getD (rng (pos + j) % scored.length) dfltScored)

theorem tdraws_subset (scored : List (Node × ℝ)) (k : ℕ) (rng : ℕ → ℕ)
    (pos : ℕ) (hne : scored ≠ []) :
    ∀ x ∈ tdraws scored k rng pos, x ∈ scored := by
intro x hx
rcases List.mem_map.mp hx with ⟨j, _, rfl⟩
have hlen : 0 < scored.length := List.length_pos.mpr hne
have hlt : rng (pos + j) % scored.length < scored.length := Nat.mod_lt _ hlen
rw [List.getD_eq_getElem _ _ hlt]
exact List.getElem_mem hlt

theorem tdraws_ne_nil (scored : List (Node × ℝ)) (k : ℕ) (rng : ℕ → ℕ)
    (pos : ℕ) (hk : 0 < k) : tdraws scored k rng pos ≠ [] := by
simp only [tdraws, ne_eq, List.map_eq_nil_iff, List.range_eq_nil]
omega

/-- Modelled from the spec: tournament selection — draw `selection_size`
individuals uniformly at random with replacement from the scored current
generation and return the one with the lowest error, threading the rng
read position. -/
noncomputable def select_parent (scored : List (Node × ℝ))
    (selection_size : ℕ) (rng : ℕ → ℕ) (pos : ℕ) : (Node × ℝ) × ℕ :=
(bestOf (tdraws scored selection_size rng pos), pos + selection_size)

/-- Modelled from the spec: fitness of a chromosome — the aggregate mean
squared error between the clamped evaluation and the paired label over
the entire dataset. -/
noncomputable def fitness (ds : List ((ℕ → FVal) × ℝ)) (n : Node) : ℝ :=
(ds.map (fun d => ((evaluate n d.1).toReal - d.2) ^ 2)).sum / ds.length

/-- Modelled from the spec: the immutable run configuration — population
size, tournament/selection size, initial and maximum depth, mutation-rate
threshold (parts per million) and the vocabularies. -/
structure Cfg where
  pop_size : ℕ
  selection_size : ℕ
  init_depth : ℕ
  max_depth : ℕ
  mut_rate : ℕ
  vocab : Vocab

/-- Modelled from the spec: fill the offspring slots of the next
generation — for each slot select a mother and a father by tournament,
cross them over and mutate the result. -/
noncomputable def fillOffspring (cfg : Cfg) (scored : List (Node × ℝ))
    (rng : ℕ → ℕ) : ℕ → ℕ → List Node × ℕ
| 0, pos => ([], pos)
| k + 1, pos =>
    let mo := select_parent scored cfg.selection_size rng pos
    let fa := select_parent scored cfg.selection_size rng mo.2
    let cr := crossover cfg.max_depth mo.1.1 fa.1.1 rng fa.2
    let mu := mutate cfg.vocab cfg.max_depth cfg.mut_rate cr.1 rng cr.2
    let rest := fillOffspring cfg scored rng k mu.2
    (mu.1 :: rest.1, rest.2)

/-- Modelled from the spec: generational advancement — carry the single
top-scoring individual forward unchanged (elitism), then fill the
remaining slots with select→crossover→mutate offspring. -/
noncomputable def advance (cfg : Cfg) (fit : Node → ℝ) (pop : List Node)
    (rng : ℕ → ℕ) (pos : ℕ) : List Node × ℕ :=
let scored := pop.map (fun n => (n, fit n))
let off := fillOffspring cfg scored rng (pop.length - 1) pos
((bestOf scored).1 :: off.1, off.2)

/-- Modelled from the spec: the state of a `GeneticAlgorithm` run — the
current generation, its index, the retained champion (chromosome clone,
its recorded error and its discovery generation; `none` before any scoring
pass has run) and the rng read position. -/
structure GAState where
  pop : List Node
  genIdx : ℕ
  champ : Option (Node × ℝ × ℕ)
  pos : ℕ

/-- Modelled from the spec: one generation of `train` — score every
individual, replace the retained champion by a clone of the generation's
best individual exactly when its error strictly improves on the best
recorded error (ties keep the earlier champion together with its recorded
generation index), then delegate to `advance` for the next generation. -/
noncomputable def stepGA (cfg : Cfg) (ds : List ((ℕ → FVal) × ℝ))
    (rng : ℕ → ℕ) (st : GAState) : GAState :=
let scored := st.pop.map (fun n => (n, fitness ds n))
let best := bestOf scored
let champ' :=
  match st.champ with
  | none => some (best.1, best.2, st.genIdx)
  | some c => if best.2 < c.2.1 then some (best.1, best.2, st.genIdx) else some c
let nxt := advance cfg (fitness ds) st.pop rng st.pos
{ pop := nxt.1, genIdx := st.genIdx + 1, champ := champ', pos := nxt.2 }

/-- Modelled from the spec: the training loop — starting from the
randomly initialized generation 0 with no retained champion, iterate the
per-generation step exactly `train_iterations` times; the iteration budget
alone bounds the run. -/
noncomputable def train (cfg : Cfg) (ds : List ((ℕ → FVal) × ℝ))
    (rng : ℕ → ℕ) (pop0 : List Node) (train_iterations : ℕ) : GAState :=
(stepGA cfg ds rng)^[train_iterations]
  { pop := pop0, genIdx := 0, champ := none, pos := 0 }

theorem stepGA_champ (cfg : Cfg) (ds : List ((ℕ → FVal) × ℝ))
    (rng : ℕ → ℕ) (st : GAState) (c : Node) (e : ℝ) (g : ℕ)
    (h : st.champ = some (c, e, g)) :
    ∃ c' e' g', (stepGA cfg ds rng st).champ = some (c', e', g') ∧ e' ≤ e ∧
      (e ≤ (bestOf (st.pop.map (fun n => (n, fitness ds n)))).2 →
        (c', e', g') = (c, e, g)) ∧
      ((bestOf (st.pop.map (fun n => (n, fitness ds n)))).2 < e →
        e' = (bestOf (st.pop.map (fun n => (n, fitness ds n)))).2 ∧
          g' = st.genIdx) := by
simp only [stepGA, h]
by_cases hlt :
    (bestOf (st.pop.map (fun n => (n, fitness ds n)))).2 < e
· refine ⟨(bestOf (st.pop.map (fun n => (n, fitness ds n)))).1,
    (bestOf (st.pop.map (fun n => (n, fitness ds n)))).2, st.genIdx,
    by simp [hlt], le_of_lt hlt, ?_, fun _ => ⟨rfl, rfl⟩⟩
  intro hle
  exact absurd hlt (not_lt.mpr hle)
· refine ⟨c, e, g, by simp [hlt], le_rfl, fun _ => rfl, ?_⟩
  intro hlt'
  exact absurd hlt' hlt

/-- Modelled from the spec: the fatal error raised for invalid construction
parameters. -/
inductive ConfigurationError where
| nonPositivePopulation
| selectionExceedsPopulation
| maxDepthBelowInitDepth
| negativeIterationBudget
deriving DecidableEq, Repr

/-- Modelled from the spec: validated construction of `Population` — a
non-positive population size, a selection size exceeding the population
size, or a maximum depth below the initial depth is detected at
construction and raises a fatal `ConfigurationError`. -/
def mkPopulation (pop_size selection_size init_depth max_depth : ℤ) :
    Except ConfigurationError (ℤ × ℤ × ℤ × ℤ) :=
if pop_size ≤ 0 then .error .nonPositivePopulation
else if pop_size < selection_size then .error .selectionExceedsPopulation
else if max_depth < init_depth then .error .maxDepthBelowInitDepth
else .ok (pop_size, selection_size, init_depth, max_depth)

/-- Modelled from the spec: validated construction of `GeneticAlgorithm` —
a negative iteration budget is detected at construction and raises a fatal
`ConfigurationError`. -/
def mkGeneticAlgorithm (pop : ℤ × ℤ × ℤ × ℤ) (train_iterations : ℤ) :
    Except ConfigurationError ((ℤ × ℤ × ℤ × ℤ) × ℤ) :=
if train_iterations < 0 then .error .negativeIterationBudget
else .ok (pop, train_iterations)

/-- Modelled from the spec: the construction sequence of a run —
`Population` first, then `GeneticAlgorithm`; the run starts only if both
constructions succeed. -/
def buildRun (pop_size selection_size init_depth max_depth
    train_iterations : ℤ) :
    Except ConfigurationError ((ℤ × ℤ × ℤ × ℤ) × ℤ) :=
match mkPopulation pop_size selection_size init_depth max_depth with
| .error err => .error err
| .ok p => mkGeneticAlgorithm p train_iterations

/-- From `src/main.py` lines 86-93: the raw value `0.1 * x**2 * np.sin(x)`
computed in the float domain (`x**2` as `x * x`). -/
noncomputable def target_raw (x : FVal) : FVal :=
fMul (fMul (.fin 0.1) (fMul x x)) (fSin x)

/-- From `src/main.py` lines 86-93: the dataset's target function — compute
`0.1 * x**2 * np.sin(x)`, return `1e10` when the result is infinite (of
either sign), `0` when it is NaN, and the raw result otherwise. -/
noncomputable def target_func (x : FVal) : FVal :=
if (target_raw x).isInfB then .fin 1e10
else if (target_raw x).isNanB then .fin 0
else target_raw x

/-- From `src/main.py` line 98: the labels of the dataset are the target
function applied to (the single coordinate of) each input. -/
noncomputable def labelsOf (inputs : List FVal) : List FVal :=
inputs.map target_func

/-- Modelled from the spec (the chromosome class itself is not in the
available source): the champion chromosome — a tree plus the generation
index at which it was created, read by `main.py` line 110 as `best.gen`. -/
structure Chromosome where
  tree : Node
  gen : ℕ

/-- Modelled from the spec: the champion's accessor taking an input vector
and returning the tree's value at that input; `src/main.py` line 111 fixes
its name as `evaluate_arg` (`best.evaluate_arg(x)`). -/
noncomputable def Chromosome.evaluate_arg (c : Chromosome)
    (x : List FVal) : FVal :=
evaluate c.tree (fun i => x.getD i (.fin 0))

/-- From `src/main.py` line 111: the name of the accessor `main` invokes on
the champion for reporting and plotting. -/
def championAccessorName : String := "evaluate_arg"

/-- From `src/main.py` line 111: the predictions computed for plotting —
`[[best.evaluate_arg(x)] for x in inputs]`. -/
noncomputable def mainPredictions (best : Chromosome)
    (inputs : List (List FVal)) : List (List FVal) :=
inputs.map (fun x => [best.evaluate_arg x])

theorem evaluate_isFiniteB (env : ℕ → FVal)
    (henv : ∀ i, (env i).isFiniteB = true) :
    ∀ n : Node, (evaluate n env).isFiniteB = true := by
intro n
induction n using Node.myInd with
| ht t =>
  cases t with
  | var i => simpa [evaluate] using henv i
  | const c => simp [evaluate, FVal.isFiniteB]
| hf f cs ih =>
  simp [evaluate, clampF_isFiniteB]

/-- Sample tree: the variable `x0`. -/
def nodeA : Node := .term (.var 0)

/-- Sample tree: the variable `x1`. -/
def nodeB : Node := .term (.var 1)

/-- Sample vocabulary with one terminal and two functions. -/
def sampleVocab : Vocab := ⟨[Term.var 0], [FnSym.sin, FnSym.add]⟩

/-- Sample run configuration. -/
def sampleCfg : Cfg := ⟨2, 2, 2, 5, 500000, sampleVocab⟩

/-- Sample random oracle, always answering 0. -/
def sampleRng : ℕ → ℕ := fun _ => 0

/-- Sample finite input environment. -/
def sampleEnv : ℕ → FVal := fun _ => .fin 0

/-- C1: for every expression tree and every input environment of finite
values, `evaluate` returns a finite value — and does so at every subtree
address as well, because the clamp is applied at every operator
application, so no non-finite value ever escapes `evaluate`. -/
theorem C1_evaluate_finite (n : Node) (env : ℕ → FVal)
    (henv : ∀ i, (env i).isFiniteB = true) :
    (evaluate n env).isFiniteB = true ∧
      ∀ p ∈ allPaths n,
        (evaluate (subtree_at p n) env).isFiniteB = true :=
⟨evaluate_isFiniteB env henv n,
 fun _ _ => evaluate_isFiniteB env henv _⟩

/-- Witness for C1 at the tree `x0 / x0` and the all-zero (finite) input
environment — in particular a division whose raw result is non-finite. -/
theorem C1_witness :
    (∀ i, (sampleEnv i).isFiniteB = true) ∧
      ((evaluate (Node.fn .div [nodeA, nodeA]) sampleEnv).isFiniteB = true ∧
        ∀ p ∈ allPaths (Node.fn .div [nodeA, nodeA]),
          (evaluate (subtree_at p (Node.fn .div [nodeA, nodeA]))
            sampleEnv).isFiniteB = true) :=
⟨fun _ => rfl, C1_evaluate_finite (Node.fn .div [nodeA, nodeA]) sampleEnv
  (fun _ => rfl)⟩

/-- C2: every tree produced by `generate` has depth at most the supplied
depth budget under both strategies; a budget of 0 forces a terminal; with
remaining budget the `full` strategy always produces a function node —
choosing a function at every choice point until the budget is exhausted,
so the depth is exactly the budget — while `grow` chooses function or
terminal according to the next random draw. -/
theorem C2_generate_depth (v : Vocab) (rng : ℕ → ℕ) (pos : ℕ)
    (hv : v.fns ≠ []) :
    (∀ strat b, depth (generate v strat b rng pos).1 ≤ b) ∧
    (∀ strat, ((generate v strat 0 rng pos).1).isTermB = true) ∧
    (∀ b, 0 < b → ((generate v .full b rng pos).1).isTermB = false ∧
        depth (generate v .full b rng pos).1 = b) ∧
    (∀ b, 0 < b →
      (((generate v .grow b rng pos).1).isTermB = false ↔
        rng pos % 2 = 0)) :=
⟨fun strat b => generate_depth_le v strat b rng pos,
 fun strat => generate_zero_isTerm v strat rng pos,
 fun b hb => ⟨generate_full_isFn v hv b hb rng pos,
   generate_full_depth_eq v hv b rng pos⟩,
 fun b hb => generate_grow_isFn_iff v hv b hb rng pos⟩

/-- Witness for C2 at the sample vocabulary: the `full` strategy with
budget 3 generates a tree of depth exactly 3. -/
theorem C2_witness :
    sampleVocab.fns ≠ [] ∧ 0 < 3 ∧
      depth (generate sampleVocab .full 3 sampleRng 0).1 = 3 := by
have hv : sampleVocab.fns ≠ [] := by simp [sampleVocab]
exact ⟨hv, by decide,
  ((C2_generate_depth sampleVocab sampleRng 0 hv).2.2.1 3 (by decide)).2⟩

/-- C3: crossover of parents satisfying the arity invariant, and mutation
of a chromosome satisfying it, again satisfy the arity invariant at every
function node of the whole resulting tree. -/
theorem C3_operators_arity (v : Vocab) (max_depth rate : ℕ)
    (mother father ch : Node) (rng : ℕ → ℕ) (pos pos' : ℕ)
    (hmo : arityOk mother = true) (hfa : arityOk father = true)
    (hch : arityOk ch = true) :
    arityOk (crossover max_depth mother father rng pos).1 = true ∧
    arityOk (mutate v max_depth rate ch rng pos').1 = true :=
⟨crossoverFuel_arityOk max_depth mother father rng hmo hfa RETRY_COUNT pos,
 mutate_arityOk v max_depth rate ch rng pos' hch⟩

/-- Witness for C3 at the parents `sin(x0)` and `x1` and the chromosome
`x0`. -/
theorem C3_witness :
    arityOk (Node.fn .sin [nodeA]) = true ∧ arityOk nodeB = true ∧
      arityOk nodeA = true ∧
      (arityOk (crossover 5 (Node.fn .sin [nodeA]) nodeB sampleRng 0).1 =
          true ∧
        arityOk (mutate sampleVocab 5 500000 nodeA sampleRng 0).1 = true) := by
refine ⟨?_, ?_, ?_, ?_⟩
· decide
· decide
· decide
· exact C3_operators_arity sampleVocab 5 500000 (Node.fn .sin [nodeA]) nodeB
    nodeA sampleRng 0 0 (by decide) (by decide) (by decide)

/-- C4: for parents of depth at most `max_depth` and a chromosome of depth
at most `max_depth`, the offspring of crossover and of mutation again has
depth at most `max_depth`; crossover retries with new random addresses up
to a bounded fuel and, when the fuel is exhausted, falls back to the
unmodified mother — which guarantees termination. -/
theorem C4_operators_depth (v : Vocab) (max_depth rate : ℕ)
    (mother father ch : Node) (rng : ℕ → ℕ) (pos pos' : ℕ)
    (hmo : depth mother ≤ max_depth) (hfa : depth father ≤ max_depth)
    (hch : depth ch ≤ max_depth) :
    depth (crossover max_depth mother father rng pos).1 ≤ max_depth ∧
    depth (mutate v max_depth rate ch rng pos').1 ≤ max_depth ∧
    ∀ q, crossoverFuel max_depth mother father rng 0 q = (mother, q) :=
⟨crossoverFuel_depth_le max_depth mother father rng hmo RETRY_COUNT pos,
 mutate_depth_le v max_depth rate ch rng pos' hch,
 fun _ => rfl⟩

/-- Witness for C4 at the parents `sin(x0)` and `x1` and the chromosome
`x0`, all of depth at most 5. -/
theorem C4_witness :
    depth (Node.fn .sin [nodeA]) ≤ 5 ∧ depth nodeB ≤ 5 ∧ depth nodeA ≤ 5 ∧
      (depth (crossover 5 (Node.fn .sin [nodeA]) nodeB sampleRng 0).1 ≤ 5 ∧
        depth (mutate sampleVocab 5 500000 nodeA sampleRng 0).1 ≤ 5 ∧
        ∀ q, crossoverFuel 5 (Node.fn .sin [nodeA]) nodeB sampleRng 0 q =
          (Node.fn .sin [nodeA], q)) := by
refine ⟨?_, ?_, ?_, ?_⟩
· decide
· decide
· decide
· exact C4_operators_depth sampleVocab 5 500000 (Node.fn .sin [nodeA]) nodeB
    nodeA sampleRng 0 0 (by decide) (by decide) (by decide)

/-- Sample scored population for tournament selection: `x0` with error 1
and `x1` with error 0. -/
def popC5 : List (Node × ℝ) := [(nodeA, 1), (nodeB, 0)]

/-- C5 as stated is false: with `selection_size = pop_size = 2` and random
draws (with replacement) that hit index 0 both times, tournament selection
returns the individual with error 1, while the single best individual of
the population has error 0. -/
theorem C5_counterexample :
    (select_parent popC5 2 sampleRng 0).1.2 = 1 ∧
      (bestOf popC5).2 = 0 ∧ (1 : ℝ) ≠ 0 := by
have hdraws : tdraws popC5 2 sampleRng 0 = [(nodeA, 1), (nodeA, 1)] := by
  simp [tdraws, popC5, sampleRng, List.range_succ]
refine ⟨?_, ?_, by norm_num⟩
· show (bestOf (tdraws popC5 2 sampleRng 0)).2 = 1
  rw [hdraws]
  norm_num [bestOf, keepBetter]
· norm_num [bestOf, keepBetter, popC5]

/-- C5 amended: with `selection_size = pop_size`, tournament selection
returns the lowest-error individual among its `selection_size`
with-replacement draws — its error is never below the population's best
error, and it equals the population's best error exactly when some draw
hits a lowest-error individual (which with-replacement draws do not
guarantee even when `selection_size = pop_size`). -/
theorem C5_tournament_amended (scored : List (Node × ℝ)) (k : ℕ)
    (rng : ℕ → ℕ) (pos : ℕ) (hne : scored ≠ []) (hk : k = scored.length) :
    (bestOf scored).2 ≤ (select_parent scored k rng pos).1.2 ∧
    (∀ x ∈ tdraws scored k rng pos,
      (select_parent scored k rng pos).1.2 ≤ x.2) ∧
    ((∃ x ∈ tdraws scored k rng pos, x.2 = (bestOf scored).2) →
      (select_parent scored k rng pos).1.2 = (bestOf scored).2) := by
simp only [select_parent]
have hk0 : 0 < k := by
  rw [hk]
  exact List.length_pos.mpr hne
have hsub := tdraws_subset scored k rng pos hne
have hmem : bestOf (tdraws scored k rng pos) ∈ tdraws scored k rng pos :=
  bestOf_mem _ (tdraws_ne_nil scored k rng pos hk0)
have h1 : (bestOf scored).2 ≤ (bestOf (tdraws scored k rng pos)).2 :=
  bestOf_le scored _ (hsub _ hmem)
refine ⟨h1, fun x hx => bestOf_le _ x hx, ?_⟩
rintro ⟨x, hx, hxe⟩
have h2 : (bestOf (tdraws scored k rng pos)).2 ≤ x.2 := bestOf_le _ x hx
exact le_antisymm (hxe ▸ h2) h1

/-- Witness for the amended C5 at the sample scored population with
`selection_size = pop_size = 2`. -/
theorem C5_witness :
    popC5 ≠ [] ∧ 2 = popC5.length ∧
      ((bestOf popC5).2 ≤ (select_parent popC5 2 sampleRng 0).1.2 ∧
        (∀ x ∈ tdraws popC5 2 sampleRng 0,
          (select_parent popC5 2 sampleRng 0).1.2 ≤ x.2) ∧
        ((∃ x ∈ tdraws popC5 2 sampleRng 0, x.2 = (bestOf popC5).2) →
          (select_parent popC5 2 sampleRng 0).1.2 = (bestOf popC5).2)) := by
have hne : popC5 ≠ [] := by simp [popC5]
have hk : 2 = popC5.length := by simp [popC5]
exact ⟨hne, hk, C5_tournament_amended popC5 2 sampleRng 0 hne hk⟩

/-- C6: across the generations of a run of `train`, the champion's
recorded error is non-increasing — the retained champion is replaced by a
clone of the generation's best individual only when that individual's
error strictly improves on the recorded error (and then the current
generation index is recorded); on ties the earlier champion is kept
together with its recorded generation index. -/
theorem C6_champion_error_monotone (cfg : Cfg)
    (ds : List ((ℕ → FVal) × ℝ)) (rng : ℕ → ℕ) (pop0 : List Node) (k : ℕ)
    (c : Node) (e : ℝ) (g : ℕ)
    (h : (train cfg ds rng pop0 k).champ = some (c, e, g)) :
    ∃ c' e' g',
      (train cfg ds rng pop0 (k + 1)).champ = some (c', e', g') ∧ e' ≤ e ∧
      (e ≤ (bestOf ((train cfg ds rng pop0 k).pop.map
          (fun n => (n, fitness ds n)))).2 → (c', e', g') = (c, e, g)) ∧
      ((bestOf ((train cfg ds rng pop0 k).pop.map
          (fun n => (n, fitness ds n)))).2 < e →
        e' = (bestOf ((train cfg ds rng pop0 k).pop.map
            (fun n => (n, fitness ds n)))).2 ∧
          g' = (train cfg ds rng pop0 k).genIdx) := by
have htr : train cfg ds rng pop0 (k + 1) =
    stepGA cfg ds rng (train cfg ds rng pop0 k) := by
  simp [train, Function.iterate_succ_apply']
rw [htr]
exact stepGA_champ cfg ds rng _ c e g h

/-- Witness for C6: after one generation on the empty dataset with the
one-individual population `[x0]`, the champion is `x0` with recorded
error 0 at generation 0, and the next generation's champion obeys the
monotonicity statement. -/
theorem C6_witness :
    (train sampleCfg [] sampleRng [nodeA] 1).champ = some (nodeA, 0, 0) ∧
      ∃ c' e' g',
        (train sampleCfg [] sampleRng [nodeA] (1 + 1)).champ =
            some (c', e', g') ∧ (e' : ℝ) ≤ 0 ∧
        ((0 : ℝ) ≤ (bestOf ((train sampleCfg [] sampleRng [nodeA] 1).pop.map
            (fun n => (n, fitness [] n)))).2 → (c', e', g') = (nodeA, 0, 0)) ∧
        ((bestOf ((train sampleCfg [] sampleRng [nodeA] 1).pop.map
            (fun n => (n, fitness [] n)))).2 < 0 →
          e' = (bestOf ((train sampleCfg [] sampleRng [nodeA] 1).pop.map
              (fun n => (n, fitness [] n)))).2 ∧
            g' = (train sampleCfg [] sampleRng [nodeA] 1).genIdx) := by
have hfit : fitness [] nodeA = 0 := by simp [fitness]
have h : (train sampleCfg [] sampleRng [nodeA] 1).champ =
    some (nodeA, 0, 0) := by
  simp [train, stepGA, bestOf, keepBetter, hfit]
exact ⟨h, C6_champion_error_monotone sampleCfg [] sampleRng [nodeA] 1
  nodeA 0 0 h⟩

/-- C7 as stated is false: with a non-empty initial generation and
`train_iterations = 0`, `train` retains no champion at all (the champion
slot is still `none`, because no scoring pass ever ran), rather than
returning the best individual of the randomly initialized generation. -/
theorem C7_counterexample :
    (train sampleCfg [] sampleRng [nodeA, nodeB] 0).champ = none ∧
      ([nodeA, nodeB] : List Node) ≠ [] :=
⟨rfl, by simp⟩

/-- C7 amended: with `train_iterations = 0`, `train` applies no
evolutionary step — it returns with the initial generation untouched, the
generation counter at 0 and the champion slot still unset (`none`), not
with the best individual of the initial generation; and no early-exit
condition exists: after `k` iterations the generation counter is exactly
`k`, so the iteration budget alone bounds the run. -/
theorem C7_train_zero (cfg : Cfg) (ds : List ((ℕ → FVal) × ℝ))
    (rng : ℕ → ℕ) (pop0 : List Node) :
    train cfg ds rng pop0 0 = ⟨pop0, 0, none, 0⟩ ∧
      ∀ k, (train cfg ds rng pop0 k).genIdx = k := by
refine ⟨rfl, ?_⟩
intro k
induction k with
| zero => rfl
| succ k ih =>
  have htr : train cfg ds rng pop0 (k + 1) =
      stepGA cfg ds rng (train cfg ds rng pop0 k) := by
    simp [train, Function.iterate_succ_apply']
  rw [htr]
  simp [stepGA, ih]

/-- C8: for every float input `x`, the dataset's target function returns a
finite value — it computes `0.1 * x**2 * sin(x)`, returns `1e10` when the
result is infinite (of either sign), `0` when it is NaN, and the raw
(finite) result otherwise; consequently every label of the constructed
dataset is finite. -/
theorem C8_target_func_finite :
    (∀ x, (target_func x).isFiniteB = true) ∧
    (∀ x, (target_raw x).isInfB = true → target_func x = .fin 1e10) ∧
    (∀ x, (target_raw x).isNanB = true → target_func x = .fin 0) ∧
    (∀ x, (target_raw x).isFiniteB = true → target_func x = target_raw x) ∧
    (∀ inputs, ∀ y ∈ labelsOf inputs, y.isFiniteB = true) := by
have hfin : ∀ x, (target_func x).isFiniteB = true := by
  intro x
  unfold target_func
  cases hv : target_raw x <;>
    simp [FVal.isInfB, FVal.isNanB, FVal.isFiniteB]
refine ⟨hfin, ?_, ?_, ?_, ?_⟩
· intro x h
  unfold target_func
  cases hv : target_raw x <;> rw [hv] at h <;>
    simp_all [FVal.isInfB]
· intro x h
  unfold target_func
  cases hv : target_raw x <;> rw [hv] at h <;>
    simp_all [FVal.isInfB, FVal.isNanB]
· intro x h
  unfold target_func
  cases hv : target_raw x <;> rw [hv] at h <;>
    simp_all [FVal.isInfB, FVal.isNanB, FVal.isFiniteB]
· intro inputs y hy
  rcases List.mem_map.mp hy with ⟨x, _, rfl⟩
  exact hfin x

/-- Witness for C8 at the input NaN: the raw result is NaN and the
returned label is the finite value 0. -/
theorem C8_witness :
    (target_raw .nan).isNanB = true ∧ target_func .nan = .fin 0 :=
⟨rfl, C8_target_func_finite.2.2.1 .nan rfl⟩

/-- C9: every invalid construction-parameter combination — selection size
exceeding population size, maximum depth below initial depth, non-positive
population size or negative iteration budget — is detected at construction
of `Population`/`GeneticAlgorithm` and yields a fatal
`ConfigurationError`, so the run never starts. -/
theorem C9_invalid_config_rejected (pop_size selection_size init_depth
    max_depth train_iterations : ℤ)
    (h : pop_size < selection_size ∨ max_depth < init_depth ∨
      pop_size ≤ 0 ∨ train_iterations < 0) :
    ∃ err, buildRun pop_size selection_size init_depth max_depth
      train_iterations = .error err := by
by_cases h1 : pop_size ≤ 0
· exact ⟨.nonPositivePopulation, by simp [buildRun, mkPopulation, h1]⟩
· by_cases h2 : pop_size < selection_size
  · exact ⟨.selectionExceedsPopulation,
      by simp [buildRun, mkPopulation, h1, h2]⟩
  · by_cases h3 : max_depth < init_depth
    · exact ⟨.maxDepthBelowInitDepth,
        by simp [buildRun, mkPopulation, h1, h2, h3]⟩
    · have h4 : train_iterations < 0 := by
        rcases h with h | h | h | h
        · exact absurd h h2
        · exact absurd h h3
        · exact absurd h h1
        · exact h
      exact ⟨.negativeIterationBudget,
        by simp [buildRun, mkPopulation, mkGeneticAlgorithm, h1, h2, h3, h4]⟩

/-- Witness for C9 at the invalid combination `pop_size = 0` (with
`selection_size = 1`, depths `1 ≤ 2`, iteration budget `5`). -/
theorem C9_witness :
    ((0 : ℤ) < 1 ∨ (2 : ℤ) < 1 ∨ (0 : ℤ) ≤ 0 ∨ (5 : ℤ) < 0) ∧
      ∃ err, buildRun 0 1 1 2 5 = .error err :=
⟨Or.inl (by decide),
 C9_invalid_config_rejected 0 1 1 2 5 (Or.inl (by decide))⟩

/-- C10 as stated is false: the accessor the external caller invokes on
the champion for reporting and plotting (`src/main.py` line 111) is named
`evaluate_arg`, not `evaluate`. -/
theorem C10_counterexample : championAccessorName ≠ "evaluate" := by
decide

/-- C10 amended: the champion chromosome exposes an accessor named
`evaluate_arg` taking an input and returning the tree's value at that
input, and this accessor is the one `main` invokes for reporting and
plotting at every query point of the plotted input range. -/
theorem C10_champion_accessor :
    championAccessorName = "evaluate_arg" ∧
    (∀ (best : Chromosome) (x : List FVal),
      best.evaluate_arg x = evaluate best.tree (fun i => x.getD i (.fin 0))) ∧
    (∀ (best : Chromosome) (inputs : List (List FVal)),
      mainPredictions best inputs =
        inputs.map (fun x =>
          [evaluate best.tree (fun i => x.getD i (.fin 0))])) :=
⟨rfl, fun _ _ => rfl, fun _ _ => rfl⟩

end GP

